import Mathlib

/-!
Verification development for the `unidecode-rs` transliteration engine.

The definitions below embed, at the level of Unicode code points (`Char` /
`Nat`), the core of `src/lib.rs` (override table, binary-search lookup,
transliteration pipeline with its error policies), the Python-binding policy
selector of `src/lib_py.rs`, and the generated mapping-store dispatcher whose
code template lives in `build.rs` (`lookup`, `lookup_0_255`, block bitmaps).
The generated table *data* (`src/unidecode_table/mod.rs`) is produced at build
time by querying Python Unidecode and is not part of the sources, so the
mapping store is a parameter (`Tables`); concrete example instances are
supplied for evaluation, and the invariants the generator guarantees are
stated explicitly (`Tables.bitmapWF`, `Tables.asciiWF`).
-/

namespace UnidecodeRs

/-- The curated override table from `src/lib.rs` (`MATH_ALPHA_OVERRIDES`),
transcribed entry for entry: bold capital letters, bold small letters, a
sample of script/fraktur/double-struck letters, and bold digits. -/
def MATH_ALPHA_OVERRIDES : List (Nat × String) := [
  (0x1D400, "A"), (0x1D401, "B"), (0x1D402, "C"), (0x1D403, "D"), (0x1D404, "E"),
  (0x1D405, "F"), (0x1D406, "G"), (0x1D407, "H"), (0x1D408, "I"), (0x1D409, "J"),
  (0x1D40A, "K"), (0x1D40B, "L"), (0x1D40C, "M"), (0x1D40D, "N"), (0x1D40E, "O"),
  (0x1D40F, "P"), (0x1D410, "Q"), (0x1D411, "R"), (0x1D412, "S"), (0x1D413, "T"),
  (0x1D414, "U"), (0x1D415, "V"), (0x1D416, "W"), (0x1D417, "X"), (0x1D418, "Y"),
  (0x1D419, "Z"),
  (0x1D41A, "a"), (0x1D41B, "b"), (0x1D41C, "c"), (0x1D41D, "d"), (0x1D41E, "e"),
  (0x1D41F, "f"), (0x1D420, "g"), (0x1D421, "h"), (0x1D422, "i"), (0x1D423, "j"),
  (0x1D424, "k"), (0x1D425, "l"), (0x1D426, "m"), (0x1D427, "n"), (0x1D428, "o"),
  (0x1D429, "p"), (0x1D42A, "q"), (0x1D42B, "r"), (0x1D42C, "s"), (0x1D42D, "t"),
  (0x1D42E, "u"), (0x1D42F, "v"), (0x1D430, "w"), (0x1D431, "x"), (0x1D432, "y"),
  (0x1D433, "z"),
  (0x1D4D3, "T"), (0x1D4E3, "t"), (0x1D56D, "h"), (0x1D54B, "T"), (0x1D546, "H"),
  (0x1D53C, "E"), (0x1D57F, "T"), (0x1D57A, "H"), (0x1D570, "E"),
  (0x1D7CF, "0"), (0x1D7D0, "1"), (0x1D7D1, "2"), (0x1D7D2, "3"), (0x1D7D3, "4"),
  (0x1D7D4, "5"), (0x1D7D5, "6"), (0x1D7D6, "7"), (0x1D7D7, "8"), (0x1D7D8, "9")]

/-- The `while lo < hi` loop of `lookup_override` in `src/lib.rs`, with a fuel
argument bounding the number of iterations (the interval shrinks at every
step, so `MATH_ALPHA_OVERRIDES.length` iterations always suffice). -/
def lookup_override_go (cp : Nat) : Nat → Nat → Nat → Option String
  | 0, _, _ => none
  | fuel + 1, lo, hi =>
    if lo < hi then
      let mid := (lo + hi) / 2
      let e := MATH_ALPHA_OVERRIDES.getD mid (0, "")
      if e.1 = cp then some e.2
      else if e.1 < cp then lookup_override_go cp fuel (mid + 1) hi
      else lookup_override_go cp fuel lo mid
    else none

/-- `lookup_override` from `src/lib.rs`: binary search over
`MATH_ALPHA_OVERRIDES` starting from `lo = 0`, `hi = len`. -/
def lookup_override (cp : Nat) : Option String :=
  lookup_override_go cp MATH_ALPHA_OVERRIDES.length 0 MATH_ALPHA_OVERRIDES.length

/-- The generated mapping store consumed by the pipeline.  The dispatcher code
is fixed (template in `build.rs`); the data is injected at build time, so it
is a parameter here:
* `BLOCK_BITMAPS`: one 32-byte presence bitmap per block;
* `blocks`: per block, the key/value pairs of the block's `phf` map
  (blocks without a generated file are the empty list, matching the
  `_ => None` arm of the generated `match`);
* `MAP_0_255`: the flat direct table for code points `0x00`–`0xFF`, where the
  empty string means "no mapping". -/
structure Tables where
  BLOCK_BITMAPS : List (List Nat)
  blocks : List (List (Nat × String))
  MAP_0_255 : List String

namespace unidecode_table

/-- `lookup` as emitted by `write_mod_rs` in `build.rs`: block index from
`cp >> 8`, immediate `None` when the block is beyond the bitmap array, then a
bitmap bit test on `cp & 0xFF`, and only on a set bit a probe of the block's
map. -/
def lookup (t : Tables) (cp : Nat) : Option String :=
  let block := cp >>> 8
  if t.BLOCK_BITMAPS.length ≤ block then none
  else
    let idx := cp &&& 0xFF
    let b := t.BLOCK_BITMAPS.getD block []
    let byte := idx / 8
    let bit := idx % 8
    if b.getD byte 0 &&& (1 <<< bit) = 0 then none
    else (t.blocks.getD block []).lookup cp

/-- `lookup_0_255` as emitted by `build.rs`: index the flat array, and treat
the empty string as absent. -/
def lookup_0_255 (t : Tables) (cp : Nat) : Option String :=
  let s := t.MAP_0_255.getD cp ""
  if s = "" then none else some s

end unidecode_table

/-- `ErrorsPolicy` from `src/lib.rs`. -/
inductive ErrorsPolicy where
  | Default
  | Ignore
  | Replace (replace : String)
  | Preserve
  | Strict
  | Invalid
deriving DecidableEq

/-- `TransliterationResult` from `src/lib.rs`. -/
structure TransliterationResult where
  out : String
  error_index : Option Nat
deriving DecidableEq

/-- `input.is_ascii()`: every code point (equivalently, every byte of the
UTF-8 encoding) is below `0x80`. -/
def is_ascii (s : String) : Bool := s.data.all (fun c => c.toNat < 0x80)

/-- The emission loop (pass 2) of `transliterate_internal` in `src/lib.rs`,
one decoded code point at a time.  The source batches maximal ASCII byte runs
(push the run, add its char count to `char_index`); per decoded code point
that is exactly "push the char, increment by one", which is the form used
here.  The estimation pass (pass 1) only pre-sizes the output buffer and has
no observable effect, so it is not modelled. -/
def translit_loop (t : Tables) (policy : ErrorsPolicy) :
    List Char → String → Nat → TransliterationResult
  | [], out, _ => ⟨out, none⟩
  | ch :: rest, out, char_index =>
    let cp := ch.toNat
    if cp < 0x80 then
      translit_loop t policy rest (out.push ch) (char_index + 1)
    else
      match lookup_override cp with
      | some s => translit_loop t policy rest (out ++ s) (char_index + 1)
      | none =>
        match (if cp < 0x100 then unidecode_table.lookup_0_255 t cp else none) with
        | some s => translit_loop t policy rest (out ++ s) (char_index + 1)
        | none =>
          match unidecode_table.lookup t cp with
          | some s => translit_loop t policy rest (out ++ s) (char_index + 1)
          | none =>
            match policy with
            | .Default => translit_loop t policy rest out (char_index + 1)
            | .Ignore => translit_loop t policy rest out (char_index + 1)
            | .Replace r => translit_loop t policy rest (out ++ r) (char_index + 1)
            | .Preserve => translit_loop t policy rest (out.push ch) (char_index + 1)
            | .Invalid => translit_loop t policy rest (out.push ch) (char_index + 1)
            | .Strict => ⟨out, some char_index⟩

/-- `transliterate_internal` from `src/lib.rs`: ASCII fast path returning the
input unchanged, otherwise the per-code-point loop starting from the empty
output and character index `0`. -/
def transliterate_internal (t : Tables) (input : String) (policy : ErrorsPolicy) :
    TransliterationResult :=
  if is_ascii input then ⟨input, none⟩
  else translit_loop t policy input.data "" 0

/-- `unidecode_with_policy` from `src/lib.rs`. -/
def unidecode_with_policy (t : Tables) (input : String) (policy : ErrorsPolicy) : String :=
  (transliterate_internal t input policy).out

/-- `unidecode_with_policy_result` from `src/lib.rs`: surface the strict
failure index as an error. -/
def unidecode_with_policy_result (t : Tables) (input : String) (policy : ErrorsPolicy) :
    Except Nat String :=
  let r := transliterate_internal t input policy
  match r.error_index with
  | some idx => .error idx
  | none => .ok r.out

/-- `unidecode` from `src/lib.rs`. -/
def unidecode (t : Tables) (input : String) : String :=
  unidecode_with_policy t input .Default

/-- The policy selection of the `unidecode` entry point in `src/lib_py.rs`
(lines matching `errors.unwrap_or("")` against the known selector strings; a
Rust `match` on `&str` literals is a chain of equality tests).  `"invalid"`
is mapped to `Preserve`, its historical alias, exactly as in the source. -/
def select_policy (errors : Option String) (replace_str : Option String) :
    Except String ErrorsPolicy :=
  let e := errors.getD ""
  if e = "" then .ok .Default
  else if e = "ignore" then .ok .Ignore
  else if e = "replace" then .ok (.Replace (replace_str.getD "?"))
  else if e = "preserve" then .ok .Preserve
  else if e = "invalid" then .ok .Preserve
  else if e = "strict" then .ok .Strict
  else .error ("unknown errors policy: " ++ e)

/-- How the emission loop resolves one decoded code point: ASCII is copied
through, then the override table, then (below `0x100`) the direct table, then
the block tables; `none` means the code point is unmapped and the active
policy applies. -/
def resolve_char (t : Tables) (ch : Char) : Option String :=
  let cp := ch.toNat
  if cp < 0x80 then some (String.singleton ch)
  else
    match lookup_override cp with
    | some s => some s
    | none =>
      match (if cp < 0x100 then unidecode_table.lookup_0_255 t cp else none) with
      | some s => some s
      | none => unidecode_table.lookup t cp

/-- Transliteration of a fully mapped list of code points: the concatenation
of the resolved replacement strings. -/
def translitList (t : Tables) : List Char → String
  | [] => ""
  | ch :: rest => (resolve_char t ch).getD "" ++ translitList t rest

/-- Modelled from the spec: a minimal mapping-store instance for the worked
example of Section 8 — `é` (U+00E9) maps to `"e"` through the direct
0x00–0xFF table, and `😀` (U+1F600) is unmapped (no block data at all).  The
generated table data itself is absent from the sources. -/
def tEx : Tables :=
  { BLOCK_BITMAPS := []
    blocks := []
    MAP_0_255 := List.replicate 0xE9 "" ++ ["e"] ++ List.replicate 0x16 "" }

/-- Modelled from the spec: a mapping-store instance whose block table also
carries an entry at U+1D400 (a key of the override table), to exercise the
override-beats-block-table precedence.  The generated table data itself is
absent from the sources. -/
def tEx2 : Tables :=
  { BLOCK_BITMAPS := List.replicate 0x1D4 (List.replicate 32 0) ++ [[1]]
    blocks := List.replicate 0x1D4 [] ++ [[(0x1D400, "ZZ")]]
    MAP_0_255 := [] }

/-- Modelled from the spec: a one-block mapping-store instance (bit 0 of
block 0 set, key 0 mapped to `"X"`) small enough for kernel evaluation of the
bitmap well-formedness predicate.  The generated table data itself is absent
from the sources. -/
def tEx3 : Tables :=
  { BLOCK_BITMAPS := [[1]]
    blocks := [[(0, "X")]]
    MAP_0_255 := [] }

/-- The bitmap bit the dispatcher tests for `cp` (0 whenever the block is out
of range, since `getD` then yields the all-zero bitmap). -/
def bitmapBit (t : Tables) (cp : Nat) : Bool :=
  ((t.BLOCK_BITMAPS.getD (cp >>> 8) []).getD ((cp &&& 0xFF) / 8) 0
    &&& (1 <<< ((cp &&& 0xFF) % 8))) != 0

/-- Modelled from the spec and from the generation step of `build.rs`: a bit
is set in a block's bitmap only for a key its `phf` map holds, and the Python
extraction stores only non-empty replacements — so a set bit guarantees a
non-empty entry under that key. -/
def Tables.bitmapWF (t : Tables) : Bool :=
  (List.range t.BLOCK_BITMAPS.length).all fun block =>
    (List.range 256).all fun idx =>
      (((t.BLOCK_BITMAPS.getD block []).getD (idx / 8) 0 &&& (1 <<< (idx % 8))) == 0)
      || (match (t.blocks.getD block []).lookup (block * 256 + idx) with
          | some s => s != ""
          | none => false)

/-- Modelled from the spec: every replacement stored in the mapping store is
pure ASCII ("All stored replacements are pure ASCII byte sequences"). -/
def Tables.asciiWF (t : Tables) : Bool :=
  t.MAP_0_255.all is_ascii
  && t.blocks.all (fun entries => entries.all (fun e => is_ascii e.2))

/-- Strict increase of the stored keys along the list. -/
def sortedByKey : List (Nat × String) → Bool
  | [] => true
  | [_] => true
  | a :: b :: rest => decide (a.1 < b.1) && sortedByKey (b :: rest)

/-! ### Helper lemmas -/

theorem push_eq_append (s : String) (c : Char) : s.push c = s ++ String.singleton c := rfl

/-- One step of the emission loop, phrased through `resolve_char`. -/
theorem translit_loop_cons (t : Tables) (p : ErrorsPolicy) (ch : Char) (rest : List Char)
    (out : String) (k : Nat) :
    translit_loop t p (ch :: rest) out k =
      match resolve_char t ch with
      | some s => translit_loop t p rest (out ++ s) (k + 1)
      | none =>
        match p with
        | .Default => translit_loop t p rest out (k + 1)
        | .Ignore => translit_loop t p rest out (k + 1)
        | .Replace r => translit_loop t p rest (out ++ r) (k + 1)
        | .Preserve => translit_loop t p rest (out.push ch) (k + 1)
        | .Invalid => translit_loop t p rest (out.push ch) (k + 1)
        | .Strict => ⟨out, some k⟩ := by
  by_cases h80 : ch.toNat < 0x80
  · simp only [translit_loop, resolve_char, if_pos h80]
    rfl
  · simp only [translit_loop, resolve_char, if_neg h80]
    cases ho : lookup_override ch.toNat with
    | some s => rfl
    | none =>
      cases h1 : (if ch.toNat < 0x100 then unidecode_table.lookup_0_255 t ch.toNat else none) with
      | some s => rfl
      | none =>
        cases h2 : unidecode_table.lookup t ch.toNat with
        | some s => rfl
        | none => cases p <;> rfl

/-- Step lemma, resolved case. -/
theorem translit_loop_cons_resolved (t : Tables) (p : ErrorsPolicy) (ch : Char)
    (rest : List Char) (out : String) (k : Nat) (s : String)
    (h : resolve_char t ch = some s) :
    translit_loop t p (ch :: rest) out k = translit_loop t p rest (out ++ s) (k + 1) := by
  rw [translit_loop_cons, h]

/-- Step lemma, unmapped case under `Strict`. -/
theorem translit_loop_cons_strict (t : Tables) (ch : Char)
    (rest : List Char) (out : String) (k : Nat)
    (h : resolve_char t ch = none) :
    translit_loop t .Strict (ch :: rest) out k = ⟨out, some k⟩ := by
  rw [translit_loop_cons, h]

/-- An association-list probe only returns a stored pair's value, under its own
key. -/
theorem lookup_mem {l : List (Nat × String)} {k : Nat} {v : String}
    (h : l.lookup k = some v) : (k, v) ∈ l := by
  induction l with
  | nil => simp [List.lookup] at h
  | cons p rest ih =>
    obtain ⟨k1, v1⟩ := p
    rw [List.lookup] at h
    by_cases hk : k == k1
    · simp only [hk] at h
      simp only [Option.some.injEq] at h
      have hk2 : k = k1 := eq_of_beq hk
      subst hk2; subst h; exact List.mem_cons_self _ _
    · simp only [Bool.not_eq_true] at hk
      simp only [hk] at h
      exact List.mem_cons_of_mem _ (ih h)

/-- The binary search can only surface a stored pair: any hit was read out of
`MATH_ALPHA_OVERRIDES` at an in-range position with its key equal to `cp`. -/
theorem lookup_override_go_sound (cp : Nat) :
    ∀ fuel lo hi, hi ≤ MATH_ALPHA_OVERRIDES.length →
      ∀ v, lookup_override_go cp fuel lo hi = some v → (cp, v) ∈ MATH_ALPHA_OVERRIDES := by
  intro fuel
  induction fuel with
  | zero => intro lo hi _ v h; simp [lookup_override_go] at h
  | succ n ih =>
    intro lo hi hhi v h
    simp only [lookup_override_go] at h
    by_cases hlt : lo < hi
    · rw [if_pos hlt] at h
      have hmid : (lo + hi) / 2 < hi := by
        rw [Nat.div_lt_iff_lt_mul (by norm_num : 0 < 2)]
        omega
      by_cases hk : (MATH_ALPHA_OVERRIDES.getD ((lo + hi) / 2) (0, "")).1 = cp
      · rw [if_pos hk] at h
        have hlen : (lo + hi) / 2 < MATH_ALPHA_OVERRIDES.length := lt_of_lt_of_le hmid hhi
        rw [List.getD_eq_getElem _ _ hlen] at h hk
        have hm := List.getElem_mem hlen
        rw [Option.some.injEq] at h
        have heq : MATH_ALPHA_OVERRIDES[(lo + hi) / 2] = (cp, v) :=
          Prod.ext hk h
        rw [heq] at hm
        exact hm
      · rw [if_neg hk] at h
        by_cases hlt2 : (MATH_ALPHA_OVERRIDES.getD ((lo + hi) / 2) (0, "")).1 < cp
        · rw [if_pos hlt2] at h
          exact ih _ hi hhi v h
        · rw [if_neg hlt2] at h
          exact ih lo _ (le_trans (Nat.le_of_lt hmid) hhi) v h
    · rw [if_neg hlt] at h
      simp at h

theorem lookup_override_sound {cp : Nat} {v : String}
    (h : lookup_override cp = some v) : (cp, v) ∈ MATH_ALPHA_OVERRIDES :=
  lookup_override_go_sound cp _ 0 _ le_rfl v h

/-- On a fully mapped suffix the loop never fails and appends exactly the
resolved replacements. -/
theorem translit_loop_mapped (t : Tables) (p : ErrorsPolicy) (cs : List Char)
    (h : ∀ c ∈ cs, resolve_char t c ≠ none) (out : String) (k : Nat) :
    translit_loop t p cs out k = ⟨out ++ translitList t cs, none⟩ := by
  induction cs generalizing out k with
  | nil => simp [translit_loop, translitList, String.append_empty]
  | cons ch rest ih =>
    cases hr : resolve_char t ch with
    | none => exact absurd hr (h ch (List.mem_cons_self _ _))
    | some s =>
      rw [translit_loop_cons_resolved t p ch rest out k s hr,
        ih (fun c hc => h c (List.mem_cons_of_mem _ hc))]
      simp [translitList, hr, String.append_assoc]

/-- Under `Strict` the loop stops at the first unmapped code point: the failure
index counts the decoded code points before it and the partial output is the
transliteration of that prefix. -/
theorem translit_loop_strict_err (t : Tables) (pre : List Char) (ch : Char) (post : List Char)
    (hpre : ∀ c ∈ pre, resolve_char t c ≠ none) (hch : resolve_char t ch = none)
    (out : String) (k : Nat) :
    translit_loop t .Strict (pre ++ ch :: post) out k =
      ⟨out ++ translitList t pre, some (k + pre.length)⟩ := by
  induction pre generalizing out k with
  | nil =>
    rw [List.nil_append, translit_loop_cons_strict t ch post out k hch]
    simp [translitList, String.append_empty]
  | cons c rest ih =>
    cases hr : resolve_char t c with
    | none => exact absurd hr (hpre c (List.mem_cons_self _ _))
    | some s =>
      rw [List.cons_append, translit_loop_cons_resolved t .Strict c _ out k s hr,
        ih (fun x hx => hpre x (List.mem_cons_of_mem _ hx))]
      simp only [translitList, hr, Option.getD_some, TransliterationResult.mk.injEq,
        List.length_cons, Option.some.injEq]
      exact ⟨String.append_assoc _ _ _, by omega⟩

/-- A list containing an unmapped code point splits at the first one. -/
theorem exists_first_unmapped (t : Tables) (cs : List Char)
    (h : ∃ c ∈ cs, resolve_char t c = none) :
    ∃ pre ch post, cs = pre ++ ch :: post ∧ resolve_char t ch = none ∧
      ∀ c ∈ pre, resolve_char t c ≠ none := by
  induction cs with
  | nil => simp at h
  | cons c rest ih =>
    cases hr : resolve_char t c with
    | none => exact ⟨[], c, rest, rfl, hr, by simp⟩
    | some s =>
      have hrest : ∃ x ∈ rest, resolve_char t x = none := by
        obtain ⟨x, hx, hxn⟩ := h
        cases List.mem_cons.mp hx with
        | inl he => rw [he, hr] at hxn; cases hxn
        | inr hm => exact ⟨x, hm, hxn⟩
      obtain ⟨pre, ch, post, heq, hn, hp⟩ := ih hrest
      refine ⟨c :: pre, ch, post, by rw [heq, List.cons_append], hn, ?_⟩
      intro x hx
      cases List.mem_cons.mp hx with
      | inl he => rw [he, hr]; simp
      | inr hm => exact hp x hm

/-- ASCII code points always resolve, to themselves. -/
theorem resolve_char_ascii (t : Tables) (c : Char) (h : c.toNat < 0x80) :
    resolve_char t c = some (String.singleton c) := by
  rw [resolve_char]
  exact if_pos h

/-- An unmapped code point is non-ASCII and missed by all three tables, and
conversely. -/
theorem resolve_char_none_iff (t : Tables) (c : Char) :
    resolve_char t c = none ↔
      0x80 ≤ c.toNat ∧ lookup_override c.toNat = none ∧
        (c.toNat < 0x100 → unidecode_table.lookup_0_255 t c.toNat = none) ∧
        unidecode_table.lookup t c.toNat = none := by
  rw [resolve_char]
  by_cases h80 : c.toNat < 0x80
  · rw [if_pos h80]
    simp
    omega
  · rw [if_neg h80]
    cases ho : lookup_override c.toNat with
    | some s => simp [ho]
    | none =>
      cases h1 : (if c.toNat < 0x100 then unidecode_table.lookup_0_255 t c.toNat else none) with
      | some s =>
        simp only [ho]
        by_cases h100 : c.toNat < 0x100
        · rw [if_pos h100] at h1
          simp [h1, h100]
        · rw [if_neg h100] at h1
          cases h1
      | none =>
        simp only [ho, true_and]
        constructor
        · intro hl
          refine ⟨by omega, ?_, hl⟩
          intro h100
          rwa [if_pos h100] at h1
        · exact fun hx => hx.2.2

theorem is_ascii_append (a b : String) : is_ascii (a ++ b) = (is_ascii a && is_ascii b) := by
  simp [is_ascii]

theorem all_overrides_ascii : ∀ p ∈ MATH_ALPHA_OVERRIDES, is_ascii p.2 = true := by decide

theorem all_overrides_key_ge : ∀ p ∈ MATH_ALPHA_OVERRIDES, 0x1D400 ≤ p.1 := by decide

theorem getD_mem_or {α : Type} (l : List α) (n : Nat) (d : α) :
    l.getD n d ∈ l ∨ l.getD n d = d := by
  by_cases h : n < l.length
  · left; rw [List.getD_eq_getElem _ _ h]; exact List.getElem_mem h
  · right; exact List.getD_eq_default _ _ (le_of_not_lt h)

theorem lookup_0_255_ascii (t : Tables) (ht : t.asciiWF = true) {cp : Nat} {s : String}
    (h : unidecode_table.lookup_0_255 t cp = some s) : is_ascii s = true := by
  simp only [unidecode_table.lookup_0_255] at h
  by_cases he : t.MAP_0_255.getD cp "" = ""
  · rw [if_pos he] at h; cases h
  · rw [if_neg he] at h
    rw [Option.some.injEq] at h
    rcases getD_mem_or t.MAP_0_255 cp "" with hm | hd
    · rw [Tables.asciiWF, Bool.and_eq_true] at ht
      rw [← h]
      exact List.all_eq_true.mp ht.1 _ hm
    · exact absurd hd he

theorem table_lookup_entry_mem (t : Tables) {cp : Nat} {s : String}
    (h : unidecode_table.lookup t cp = some s) :
    ∃ entries ∈ t.blocks, (cp, s) ∈ entries := by
  simp only [unidecode_table.lookup] at h
  by_cases h1 : t.BLOCK_BITMAPS.length ≤ cp >>> 8
  · rw [if_pos h1] at h; cases h
  · rw [if_neg h1] at h
    by_cases h2 : (t.BLOCK_BITMAPS.getD (cp >>> 8) []).getD ((cp &&& 0xFF) / 8) 0
        &&& (1 <<< ((cp &&& 0xFF) % 8)) = 0
    · rw [if_pos h2] at h; cases h
    · rw [if_neg h2] at h
      have hm := lookup_mem h
      rcases getD_mem_or t.blocks (cp >>> 8) [] with hb | hb
      · exact ⟨_, hb, hm⟩
      · rw [hb] at hm; cases hm

theorem table_lookup_ascii (t : Tables) (ht : t.asciiWF = true) {cp : Nat} {s : String}
    (h : unidecode_table.lookup t cp = some s) : is_ascii s = true := by
  obtain ⟨entries, hbm, hem⟩ := table_lookup_entry_mem t h
  rw [Tables.asciiWF, Bool.and_eq_true] at ht
  have h1 := List.all_eq_true.mp ht.2 _ hbm
  exact List.all_eq_true.mp h1 _ hem

theorem is_ascii_singleton (c : Char) : is_ascii (String.singleton c) = decide (c.toNat < 0x80) := by
  simp [is_ascii, String.singleton]

/-- Every replacement the resolution step can produce is ASCII, provided the
store's replacements are. -/
theorem resolve_char_ascii_val (t : Tables) (ht : t.asciiWF = true) {c : Char} {s : String}
    (h : resolve_char t c = some s) : is_ascii s = true := by
  rw [resolve_char] at h
  by_cases h80 : c.toNat < 0x80
  · rw [if_pos h80, Option.some.injEq] at h
    rw [← h, is_ascii_singleton]
    exact decide_eq_true h80
  · rw [if_neg h80] at h
    cases ho : lookup_override c.toNat with
    | some s1 =>
      rw [ho, Option.some.injEq] at h
      rw [← h]
      exact all_overrides_ascii _ (lookup_override_sound ho)
    | none =>
      rw [ho] at h
      cases h1 : (if c.toNat < 0x100 then unidecode_table.lookup_0_255 t c.toNat else none) with
      | some s1 =>
        rw [h1, Option.some.injEq] at h
        by_cases h100 : c.toNat < 0x100
        · rw [if_pos h100] at h1
          rw [← h]
          exact lookup_0_255_ascii t ht h1
        · rw [if_neg h100] at h1; cases h1
      | none =>
        rw [h1] at h
        exact table_lookup_ascii t ht h

/-- Under a drop-style or ASCII-replacement policy the loop keeps the output
ASCII. -/
theorem translit_loop_ascii (t : Tables) (ht : t.asciiWF = true) (p : ErrorsPolicy)
    (hp : p = .Default ∨ p = .Ignore ∨ ∃ r, p = .Replace r ∧ is_ascii r = true) :
    ∀ cs (out : String) (k : Nat), is_ascii out = true →
      is_ascii (translit_loop t p cs out k).out = true := by
  intro cs
  induction cs with
  | nil => intro out k hout; exact hout
  | cons c rest ih =>
    intro out k hout
    cases hr : resolve_char t c with
    | some s =>
      rw [translit_loop_cons_resolved t p c rest out k s hr]
      exact ih _ _ (by rw [is_ascii_append, hout, resolve_char_ascii_val t ht hr]; rfl)
    | none =>
      rcases hp with hP | hP | ⟨r, hP, hra⟩ <;> subst hP <;> rw [translit_loop_cons, hr]
      · exact ih out (k + 1) hout
      · exact ih out (k + 1) hout
      · exact ih (out ++ r) (k + 1) (by rw [is_ascii_append, hout, hra]; rfl)

/-- The whole pipeline keeps the output ASCII for
Default/Ignore/Replace-with-ASCII. -/
theorem unidecode_policy_ascii (t : Tables) (ht : t.asciiWF = true) (s : String)
    (p : ErrorsPolicy)
    (hp : p = .Default ∨ p = .Ignore ∨ ∃ r, p = .Replace r ∧ is_ascii r = true) :
    is_ascii (unidecode_with_policy t s p) = true := by
  rw [unidecode_with_policy, transliterate_internal]
  by_cases ha : is_ascii s
  · rw [if_pos ha]; exact ha
  · rw [if_neg ha]; exact translit_loop_ascii t ht p hp s.data "" 0 rfl

theorem translit_loop_ignore_default (t : Tables) :
    ∀ cs (out : String) (k : Nat),
      translit_loop t .Ignore cs out k = translit_loop t .Default cs out k := by
  intro cs
  induction cs with
  | nil => intro out k; rfl
  | cons c rest ih =>
    intro out k
    cases hr : resolve_char t c with
    | some s =>
      rw [translit_loop_cons_resolved t .Ignore c rest out k s hr,
        translit_loop_cons_resolved t .Default c rest out k s hr]
      exact ih _ _
    | none =>
      rw [translit_loop_cons, hr, translit_loop_cons, hr]
      exact ih out (k + 1)

theorem translit_loop_invalid_preserve (t : Tables) :
    ∀ cs (out : String) (k : Nat),
      translit_loop t .Invalid cs out k = translit_loop t .Preserve cs out k := by
  intro cs
  induction cs with
  | nil => intro out k; rfl
  | cons c rest ih =>
    intro out k
    cases hr : resolve_char t c with
    | some s =>
      rw [translit_loop_cons_resolved t .Invalid c rest out k s hr,
        translit_loop_cons_resolved t .Preserve c rest out k s hr]
      exact ih _ _
    | none =>
      rw [translit_loop_cons, hr, translit_loop_cons, hr]
      exact ih (out.push c) (k + 1)

theorem unidecode_of_ascii (t : Tables) (s : String) (h : is_ascii s = true) :
    unidecode t s = s := by
  rw [unidecode, unidecode_with_policy, transliterate_internal, if_pos h]

theorem resolve_char_override (t : Tables) {c : Char} {s : String}
    (h80 : ¬ c.toNat < 0x80) (h : lookup_override c.toNat = some s) :
    resolve_char t c = some s := by
  rw [resolve_char, if_neg h80, h]

theorem and_255_eq_mod (n : Nat) : n &&& 0xFF = n % 256 := by
  have h := Nat.and_pow_two_sub_one_eq_mod n 8
  norm_num at h
  exact h


set_option maxRecDepth 10000

/-! ### Claim theorems -/

/-- C6: for every all-ASCII input string, including the empty string,
`unidecode` returns the input unchanged. -/
theorem ascii_identity (t : Tables) (s : String) (h : is_ascii s = true) :
    unidecode t s = s :=
  unidecode_of_ascii t s h

theorem ascii_identity_witness :
    is_ascii "" = true ∧ unidecode tEx "" = ""
    ∧ is_ascii "abc" = true ∧ unidecode tEx "abc" = "abc" :=
  ⟨by decide, ascii_identity tEx "" (by decide), by decide, ascii_identity tEx "abc" (by decide)⟩

/-- C7: for every mapping store and every input, the Ignore policy produces
exactly the result of the Default policy, and the Invalid policy exactly the
result (output and error behaviour) of the Preserve policy. -/
theorem ignore_default_invalid_preserve_equiv (t : Tables) (s : String) :
    transliterate_internal t s .Ignore = transliterate_internal t s .Default
    ∧ transliterate_internal t s .Invalid = transliterate_internal t s .Preserve := by
  refine ⟨?_, ?_⟩ <;> rw [transliterate_internal, transliterate_internal]
  · by_cases ha : is_ascii s = true
    · rw [if_pos ha, if_pos ha]
    · rw [if_neg ha, if_neg ha]
      exact translit_loop_ignore_default t s.data "" 0
  · by_cases ha : is_ascii s = true
    · rw [if_pos ha, if_pos ha]
    · rw [if_neg ha, if_neg ha]
      exact translit_loop_invalid_preserve t s.data "" 0

/-- C5: `unidecode` is idempotent (given that all stored replacements are
ASCII, as the generated tables guarantee): its output is all-ASCII, so the
second pass takes the identity fast path. -/
theorem unidecode_idempotent (t : Tables) (ht : t.asciiWF = true) (s : String) :
    unidecode t (unidecode t s) = unidecode t s :=
  unidecode_of_ascii t _ (unidecode_policy_ascii t ht s .Default (Or.inl rfl))

theorem unidecode_idempotent_witness :
    unidecode tEx (unidecode tEx "é😀") = unidecode tEx "é😀" :=
  unidecode_idempotent tEx (by decide) "é😀"

/-- C4: under Default, Ignore, or Replace with an all-ASCII replacement
string, every code point (hence every byte) of the output is below `0x80`,
for every mapping store whose replacements are all ASCII. -/
theorem ascii_closure (t : Tables) (ht : t.asciiWF = true) (s : String) (p : ErrorsPolicy)
    (hp : p = .Default ∨ p = .Ignore ∨ ∃ r, p = .Replace r ∧ is_ascii r = true) :
    is_ascii (unidecode_with_policy t s p) = true :=
  unidecode_policy_ascii t ht s p hp

theorem ascii_closure_witness :
    is_ascii (unidecode_with_policy tEx "é😀" .Default) = true
    ∧ is_ascii (unidecode_with_policy tEx "é😀" .Ignore) = true
    ∧ is_ascii (unidecode_with_policy tEx "é😀" (.Replace "?")) = true :=
  ⟨ascii_closure tEx (by decide) "é😀" .Default (Or.inl rfl),
   ascii_closure tEx (by decide) "é😀" .Ignore (Or.inr (Or.inl rfl)),
   ascii_closure tEx (by decide) "é😀" (.Replace "?") (Or.inr (Or.inr ⟨"?", rfl, by decide⟩))⟩

/-- C8: a code point carried by the override table resolves to the override's
value in the pipeline, even when the block tables also hold an entry for it
(the block-table value is never emitted). -/
theorem override_priority (t : Tables) (ch : Char) (s s2 : String)
    (h1 : lookup_override ch.toNat = some s)
    (h2 : unidecode_table.lookup t ch.toNat = some s2) :
    unidecode t (String.singleton ch) = s := by
  have hmem := lookup_override_sound h1
  have hge : 0x1D400 ≤ ch.toNat := all_overrides_key_ge _ hmem
  have h80 : ¬ ch.toNat < 0x80 := by omega
  have hna : is_ascii (String.singleton ch) = false := by
    rw [is_ascii_singleton]
    exact decide_eq_false h80
  rw [unidecode, unidecode_with_policy, transliterate_internal,
    if_neg (by rw [hna]; exact Bool.false_ne_true)]
  have hres := resolve_char_override t h80 h1
  show (translit_loop t .Default [ch] "" 0).out = s
  rw [translit_loop_cons_resolved t .Default ch [] "" 0 s hres]
  show ("" ++ s : String) = s
  exact String.empty_append s

theorem override_priority_witness :
    unidecode tEx2 (String.singleton '𝐀') = "A" :=
  override_priority tEx2 '𝐀' "A" "ZZ" (by decide) (by decide)

/-- C10: the binary search of `lookup_override` can only return a stored
entry's value, keyed by the queried code point itself — it never fabricates a
value or returns another key's value. -/
theorem lookup_override_only_stored (cp : Nat) (v : String)
    (h : lookup_override cp = some v) : (cp, v) ∈ MATH_ALPHA_OVERRIDES :=
  lookup_override_sound h

theorem lookup_override_only_stored_witness :
    ((0x1D400 : Nat), "A") ∈ MATH_ALPHA_OVERRIDES :=
  lookup_override_only_stored 0x1D400 "A" (by decide)

/-- C2: refuted — `MATH_ALPHA_OVERRIDES` is NOT sorted by code point: the
entry `(0x1D56D, "h")` at position 54 is immediately followed by
`(0x1D54B, "T")` at position 55, and as a consequence the binary search
misses stored entries: `(0x1D54B, "T")` is in the table but
`lookup_override 0x1D54B` returns `none`. -/
theorem override_table_unsorted :
    ((0x1D54B : Nat), "T") ∈ MATH_ALPHA_OVERRIDES
    ∧ lookup_override 0x1D54B = none
    ∧ MATH_ALPHA_OVERRIDES.getD 54 (0, "") = (0x1D56D, "h")
    ∧ MATH_ALPHA_OVERRIDES.getD 55 (0, "") = (0x1D54B, "T")
    ∧ sortedByKey MATH_ALPHA_OVERRIDES = false := by
  refine ⟨by decide, by decide, by decide, by decide, by decide⟩

/-- C3: refuted as stated — the selector `"default"` is NOT accepted: the
binding maps `None`/`""` to the Default policy and rejects the literal string
`"default"` with an unknown-policy error. -/
theorem select_policy_default_rejected :
    select_policy (some "default") none = .error "unknown errors policy: default" := rfl

/-- C3 (amended): the policy-selecting entry point accepts exactly the
selectors `""` (or an absent argument, both meaning Default), `"ignore"`,
`"replace"`, `"preserve"`, `"invalid"` (an alias mapped to Preserve) and
`"strict"`; every other selector string, including `"default"`, fails at the
call boundary with an explicit unknown-policy error, never silently
substituting a default policy. -/
theorem select_policy_spec :
    select_policy none none = .ok .Default
    ∧ select_policy (some "") none = .ok .Default
    ∧ select_policy (some "ignore") none = .ok .Ignore
    ∧ (∀ r, select_policy (some "replace") (some r) = .ok (.Replace r))
    ∧ select_policy (some "replace") none = .ok (.Replace "?")
    ∧ select_policy (some "preserve") none = .ok .Preserve
    ∧ select_policy (some "invalid") none = .ok .Preserve
    ∧ select_policy (some "strict") none = .ok .Strict
    ∧ (∀ e r, e ≠ "" → e ≠ "ignore" → e ≠ "replace" → e ≠ "preserve" → e ≠ "invalid" →
        e ≠ "strict" → select_policy (some e) r = .error ("unknown errors policy: " ++ e)) := by
  refine ⟨rfl, rfl, rfl, fun r => rfl, rfl, rfl, rfl, rfl, ?_⟩
  intro e r h1 h2 h3 h4 h5 h6
  simp [select_policy, h1, h2, h3, h4, h5, h6]

theorem select_policy_spec_witness :
    select_policy (some "ignore") none = .ok .Ignore
    ∧ select_policy (some "foo") none = .error "unknown errors policy: foo" :=
  ⟨select_policy_spec.2.2.1,
   select_policy_spec.2.2.2.2.2.2.2.2 "foo" none (by decide) (by decide) (by decide)
     (by decide) (by decide) (by decide)⟩

/-- C9: the mapping-store dispatcher returns absent immediately when the block
index is beyond the known blocks; returns absent whenever the presence-bitmap
bit is 0; and, for data satisfying the generator's bitmap invariant, returns a
non-empty value whenever the bit is 1. -/
theorem mapping_store_lookup_spec (t : Tables) :
    (∀ cp, t.BLOCK_BITMAPS.length ≤ cp >>> 8 → unidecode_table.lookup t cp = none)
    ∧ (∀ cp, bitmapBit t cp = false → unidecode_table.lookup t cp = none)
    ∧ (t.bitmapWF = true → ∀ cp, bitmapBit t cp = true →
        ∃ s, unidecode_table.lookup t cp = some s ∧ s ≠ "") := by
  refine ⟨?_, ?_, ?_⟩
  · intro cp h
    simp only [unidecode_table.lookup]
    rw [if_pos h]
  · intro cp h
    simp only [unidecode_table.lookup]
    by_cases h1 : t.BLOCK_BITMAPS.length ≤ cp >>> 8
    · rw [if_pos h1]
    · rw [if_neg h1]
      rw [bitmapBit, bne_eq_false_iff_eq] at h
      rw [if_pos h]
  · intro hwf cp hbit
    have hblock : cp >>> 8 < t.BLOCK_BITMAPS.length := by
      by_contra hnb
      rw [bitmapBit, List.getD_eq_default _ _ (le_of_not_lt hnb)] at hbit
      simp at hbit
    rw [bitmapBit, bne_iff_ne] at hbit
    rw [Tables.bitmapWF] at hwf
    have h1 := List.all_eq_true.mp hwf (cp >>> 8) (List.mem_range.mpr hblock)
    have hidx : cp &&& 0xFF < 256 := by
      rw [and_255_eq_mod]
      exact Nat.mod_lt _ (by norm_num)
    have h2 := List.all_eq_true.mp h1 (cp &&& 0xFF) (List.mem_range.mpr hidx)
    have hcp : (cp >>> 8) * 256 + (cp &&& 0xFF) = cp := by
      rw [Nat.shiftRight_eq_div_pow, and_255_eq_mod]
      omega
    rw [Bool.or_eq_true] at h2
    cases h2 with
    | inl h2 =>
      rw [beq_iff_eq] at h2
      exact absurd h2 hbit
    | inr h2 =>
      rw [hcp] at h2
      cases hls : (t.blocks.getD (cp >>> 8) []).lookup cp with
      | none => rw [hls] at h2; cases h2
      | some s =>
        rw [hls] at h2
        rw [bne_iff_ne] at h2
        refine ⟨s, ?_, h2⟩
        simp only [unidecode_table.lookup]
        rw [if_neg (not_le.mpr hblock), if_neg hbit]
        exact hls

theorem mapping_store_lookup_spec_witness :
    unidecode_table.lookup tEx3 0x1F600 = none
    ∧ unidecode_table.lookup tEx3 1 = none
    ∧ ∃ s, unidecode_table.lookup tEx3 0 = some s ∧ s ≠ "" :=
  ⟨(mapping_store_lookup_spec tEx3).1 0x1F600 (by decide),
   (mapping_store_lookup_spec tEx3).2.1 1 (by decide),
   (mapping_store_lookup_spec tEx3).2.2 (by decide) 0 (by decide)⟩

/-- C1: under the Strict policy, `transliterate_internal` (hence
`unidecode_with_policy_result`) fails iff the input contains a code point
unmapped by all three tables (such a code point is necessarily non-ASCII);
the reported index is the count of decoded code points before the first such
code point (not a byte offset), and the partial output is exactly the
transliteration of the prefix before it.  In particular on `"é😀"` (with the
spec's example store) the failure index is 1 and the partial output `"e"`. -/
theorem strict_policy_characterization (t : Tables) (s : String) :
    ((transliterate_internal t s .Strict).error_index ≠ none ↔
      ∃ c ∈ s.data, resolve_char t c = none)
    ∧ (∀ c : Char, resolve_char t c = none ↔
        (0x80 ≤ c.toNat ∧ lookup_override c.toNat = none ∧
          (c.toNat < 0x100 → unidecode_table.lookup_0_255 t c.toNat = none) ∧
          unidecode_table.lookup t c.toNat = none))
    ∧ (∀ i, (transliterate_internal t s .Strict).error_index = some i →
        ∃ pre ch post, s.data = pre ++ ch :: post ∧ pre.length = i ∧
          resolve_char t ch = none ∧ (∀ c ∈ pre, resolve_char t c ≠ none) ∧
          (transliterate_internal t s .Strict).out = translitList t pre)
    ∧ transliterate_internal tEx "é😀" .Strict = ⟨"e", some 1⟩ := by
  refine ⟨?_, fun c => resolve_char_none_iff t c, ?_, by decide⟩
  · rw [transliterate_internal]
    by_cases ha : is_ascii s = true
    · rw [if_pos ha]
      constructor
      · intro h
        exact absurd rfl h
      · rintro ⟨c, hc, hn⟩
        have h80 : c.toNat < 0x80 := of_decide_eq_true (List.all_eq_true.mp ha c hc)
        rw [resolve_char_ascii t c h80] at hn
        cases hn
    · rw [if_neg ha]
      constructor
      · intro h
        by_contra hno
        push_neg at hno
        rw [translit_loop_mapped t .Strict s.data hno "" 0] at h
        exact h rfl
      · rintro ⟨c, hc, hn⟩
        obtain ⟨pre, ch, post, heq, hn2, hp⟩ :=
          exists_first_unmapped t s.data ⟨c, hc, hn⟩
        rw [heq, translit_loop_strict_err t pre ch post hp hn2 "" 0]
        simp
  · intro i hi
    rw [transliterate_internal] at hi
    by_cases ha : is_ascii s = true
    · rw [if_pos ha] at hi
      simp at hi
    · rw [if_neg ha] at hi
      by_cases hex : ∃ c ∈ s.data, resolve_char t c = none
      · obtain ⟨pre, ch, post, heq, hn2, hp⟩ := exists_first_unmapped t s.data hex
        rw [heq, translit_loop_strict_err t pre ch post hp hn2 "" 0] at hi
        simp only [Option.some.injEq] at hi
        refine ⟨pre, ch, post, heq, by omega, hn2, hp, ?_⟩
        rw [transliterate_internal, if_neg ha, heq,
          translit_loop_strict_err t pre ch post hp hn2 "" 0]
        exact String.empty_append _
      · push_neg at hex
        rw [translit_loop_mapped t .Strict s.data hex "" 0] at hi
        simp at hi

theorem strict_policy_characterization_witness :
    (transliterate_internal tEx "é😀" .Strict).error_index ≠ none
    ∧ transliterate_internal tEx "é😀" .Strict = ⟨"e", some 1⟩ :=
  ⟨(strict_policy_characterization tEx "é😀").1.mpr ⟨'😀', by decide, by decide⟩,
   (strict_policy_characterization tEx "é😀").2.2.2⟩

end UnidecodeRs
